import Mathlib

/-!
Shallow embedding of the `ordhash` crate (src/lib.rs): an ordered hash map
with queue-like semantics.  Keys and values are specialised to `Nat`.
The Rust `HashMap<K, GenHolder<V>>` is modelled as an association list with
unique keys (hash-map iteration order is irrelevant to every public
operation, which accesses the map by key only), the `VecDeque<GenHolder<K>>`
as a list whose head is the front, and the `usize` fields as `Nat`.
The generation counter is modelled as an unbounded `Nat` (its only uses are
`+= 1` and equality tests; wraparound is unreachable in any realistic run).
The one place where machine-integer semantics matter is `self.length -= 1`
in `pop_front` and `mark_unused`: a `usize` underflow there is a program
error (a panic in debug builds), so the model records the attempt in a
sticky `panicked` flag while clamping the stored value.
-/

/-- Translation of `struct GenHolder<V> { generation: usize, value: V }`.
It doubles as the order-queue element, where `value` holds the key. -/
structure GenHolder where
  generation : Nat
  value : Nat
  deriving DecidableEq

/-- Translation of `struct OrdHash<K, V>` with `K = V = Nat`, plus the
`panicked` flag recording an attempted `usize` underflow of `length`. -/
structure OrdHash where
  map : List (Nat × GenHolder)
  order : List GenHolder
  generation : Nat
  length : Nat
  panicked : Bool
  deriving DecidableEq

namespace OrdHash

/-- Lookup in the association list modelling `HashMap::get`. -/
def mapGet (m : List (Nat × GenHolder)) (k : Nat) : Option GenHolder :=
  match m with
  | [] => none
  | (k', vh) :: rest => if k' = k then some vh else mapGet rest k

/-- Insertion modelling `HashMap::insert`; the boolean is `true` exactly
when the returned old value would be `None` (the key was absent). -/
def mapInsert (m : List (Nat × GenHolder)) (k : Nat) (vh : GenHolder) :
    List (Nat × GenHolder) × Bool :=
  match m with
  | [] => ([(k, vh)], true)
  | (k', vh') :: rest =>
      if k' = k then ((k, vh) :: rest, false)
      else
        let r := mapInsert rest k vh
        ((k', vh') :: r.1, r.2)

/-- Removal modelling `HashMap::remove`. -/
def mapRemove (m : List (Nat × GenHolder)) (k : Nat) : List (Nat × GenHolder) :=
  match m with
  | [] => []
  | (k', vh') :: rest => if k' = k then rest else (k', vh') :: mapRemove rest k

/-- In-place update of the generation field, modelling mutation through
`HashMap::get_mut`. -/
def mapSetGen (m : List (Nat × GenHolder)) (k : Nat) (g : Nat) :
    List (Nat × GenHolder) :=
  match m with
  | [] => []
  | (k', vh') :: rest =>
      if k' = k then (k', ⟨g, vh'.value⟩) :: rest
      else (k', vh') :: mapSetGen rest k g

/-- Translation of `OrdHash::new()`. -/
def new : OrdHash := ⟨[], [], 0, 0, false⟩

/-- Translation of `OrdHash::push_back`. -/
def push_back (s : OrdHash) (key value : Nat) : OrdHash :=
  let g := s.generation + 1
  let r := mapInsert s.map key ⟨g, value⟩
  { map := r.1
    order := s.order ++ [⟨g, key⟩]
    generation := g
    length := if r.2 then s.length + 1 else s.length
    panicked := s.panicked }

/-- Translation of `OrdHash::get`. -/
def get (s : OrdHash) (key : Nat) : Option Nat :=
  match mapGet s.map key with
  | some v => if 0 ≠ v.generation then some v.value else none
  | none => none

/-- Result record for the scanning loop of `pop_front`: the optional
(key, stamp, value) triple, the remaining map and order, the new length,
and whether the `self.length -= 1` decrement underflowed. -/
structure PopOut where
  res : Option (Nat × Nat × Nat)
  map : List (Nat × GenHolder)
  order : List GenHolder
  length : Nat
  underflow : Bool
  deriving DecidableEq

/-- Scanning loop of `OrdHash::pop_front`: pop order entries from the
front, discarding stale ones, until one matches the current slot stamp;
that key is removed from the map and returned. -/
def popFrontGo (m : List (Nat × GenHolder)) (len : Nat) :
    List GenHolder → PopOut
  | [] => ⟨none, m, [], len, false⟩
  | t :: rest =>
      match mapGet m t.value with
      | some vh =>
          if vh.generation = t.generation then
            ⟨some (t.value, t.generation, vh.value), mapRemove m t.value,
              rest, len - 1, len == 0⟩
          else popFrontGo m len rest
      | none => popFrontGo m len rest

/-- Translation of `OrdHash::pop_front` (the public result drops the
stamp, as the Rust function returns only `(K, V)`). -/
def pop_front (s : OrdHash) : Option (Nat × Nat) × OrdHash :=
  let p := popFrontGo s.map s.length s.order
  (p.res.map (fun r => (r.1, r.2.2)),
    { map := p.map
      order := p.order
      generation := s.generation
      length := p.length
      panicked := s.panicked || p.underflow })

/-- Scanning loop of `OrdHash::peek_front`: read-only scan from the front
for the first order entry whose stamp matches its slot. -/
def peekFrontGo (m : List (Nat × GenHolder)) : List GenHolder → Option (Nat × Nat)
  | [] => none
  | t :: rest =>
      match mapGet m t.value with
      | some vh =>
          if vh.generation = t.generation then some (t.value, vh.value)
          else peekFrontGo m rest
      | none => peekFrontGo m rest

/-- Translation of `OrdHash::peek_front`; it takes `&self` in Rust, which
the embedding reflects by not producing a successor state at all. -/
def peek_front (s : OrdHash) : Option (Nat × Nat) :=
  peekFrontGo s.map s.order

/-- Translation of `OrdHash::len`. -/
def len (s : OrdHash) : Nat := s.length

/-- Translation of `OrdHash::used_entries`. -/
def used_entries (s : OrdHash) : Nat := s.order.length

/-- Translation of `OrdHash::is_empty`. -/
def is_empty (s : OrdHash) : Bool := len s == 0

/-- Translation of `OrdHash::mark_unused`; returns the Rust `Option<&V>`
together with the successor state. -/
def mark_unused (s : OrdHash) (key : Nat) : Option Nat × OrdHash :=
  match mapGet s.map key with
  | some vh =>
      if vh.generation ≠ 0 then
        (some vh.value,
          { s with
            map := mapSetGen s.map key 0
            length := s.length - 1
            panicked := s.panicked || (s.length == 0) })
      else (none, s)
  | none => (none, s)

/-- Translation of `OrdHash::refresh`; returns the Rust `Option<&V>`
together with the successor state. -/
def refresh (s : OrdHash) (key : Nat) : Option Nat × OrdHash :=
  match mapGet s.map key with
  | some gh =>
      (some gh.value,
        { map := mapSetGen s.map key (s.generation + 1)
          order := s.order ++ [⟨s.generation + 1, key⟩]
          generation := s.generation + 1
          length := if 0 = gh.generation then s.length + 1 else s.length
          panicked := s.panicked })
  | none => (none, s)

/-- Public mutating operations, for quantifying over call sequences. -/
inductive Op where
  | push (k v : Nat)
  | markUnused (k : Nat)
  | refreshOp (k : Nat)
  | popOp
  deriving DecidableEq

/-- Apply one public operation, discarding the returned value. -/
def applyOp (s : OrdHash) : Op → OrdHash
  | .push k v => s.push_back k v
  | .markUnused k => (s.mark_unused k).2
  | .refreshOp k => (s.refresh k).2
  | .popOp => (s.pop_front).2

/-- State after running a sequence of operations from the empty container. -/
def exec (ops : List Op) : OrdHash := ops.foldl applyOp new

/-- Number of map slots currently holding a non-zero generation stamp. -/
def liveCountM (m : List (Nat × GenHolder)) : Nat :=
  (m.filter (fun p => p.2.generation != 0)).length

/-- Live-slot count of a container state. -/
def liveCount (s : OrdHash) : Nat := liveCountM s.map

/-- Repeated `pop_front`, keeping only the final state. -/
def popN (s : OrdHash) : Nat → OrdHash
  | 0 => s
  | n + 1 => popN (s.pop_front).2 n

/-- Results of repeatedly calling `pop_front` until it reports absence:
each element is the (key, stamp, value) triple consumed by one successful
pop.  Defined by the same scan as `popFrontGo`; the lemma
`drain_pop_front_step` ties it to iterated `pop_front`. -/
def drainGo : List (Nat × GenHolder) → List GenHolder → List (Nat × Nat × Nat)
  | _, [] => []
  | m, t :: rest =>
      match mapGet m t.value with
      | some vh =>
          if vh.generation = t.generation then
            (t.value, t.generation, vh.value) :: drainGo (mapRemove m t.value) rest
          else drainGo m rest
      | none => drainGo m rest

/-- Drain of a container state by repeated `pop_front`. -/
def drain (s : OrdHash) : List (Nat × Nat × Nat) :=
  drainGo s.map s.order

/-- Keys returned by draining the container, in pop order. -/
def drainKeys (s : OrdHash) : List Nat :=
  (drain s).map (fun r => r.1)

/-- Keys of the association list, in list order. -/
def mapKeys (m : List (Nat × GenHolder)) : List Nat := m.map Prod.fst

/-- Stamps of the order queue, front first. -/
def stamps (s : OrdHash) : List Nat := s.order.map (fun t => t.generation)

/-- Order tag currently matching its slot: the key is present and the slot
stamp equals the tag stamp.  Such a tag is the one `pop_front` consumes. -/
def curEntry (m : List (Nat × GenHolder)) (t : GenHolder) : Option (Nat × Nat × Nat) :=
  match mapGet m t.value with
  | some vh => if vh.generation = t.generation then some (t.value, t.generation, vh.value) else none
  | none => none

/-- Key of a currently matching order tag, if any. -/
def curKey (m : List (Nat × GenHolder)) (t : GenHolder) : Option Nat :=
  (curEntry m t).map (fun r => r.1)

/-- Structural invariants maintained by every reachable container state. -/
structure WF (s : OrdHash) : Prop where
  nodupKeys : (mapKeys s.map).Nodup
  orderSorted : s.order.Pairwise (fun a b => a.generation < b.generation)
  orderPos : ∀ t ∈ s.order, 1 ≤ t.generation
  orderLe : ∀ t ∈ s.order, t.generation ≤ s.generation
  slotLe : ∀ p ∈ s.map, p.2.generation ≤ s.generation
  liveTag : ∀ p ∈ s.map, p.2.generation ≠ 0 →
    (⟨p.2.generation, p.1⟩ : GenHolder) ∈ s.order

/-- Keys pushed by a sequence of operations, in order. -/
def pushKeys : List Op → List Nat
  | [] => []
  | .push k _ :: rest => k :: pushKeys rest
  | _ :: rest => pushKeys rest

/-- Whether an operation is a push or a pop (neither disables nor refreshes). -/
def isPushOrPop : Op → Bool
  | .push _ _ => true
  | .popOp => true
  | _ => false

/-- Operation sequences in which every pushed key is fresh and no key is
ever updated, refreshed or disabled. -/
def freshOnly (ops : List Op) : Prop :=
  (pushKeys ops).Nodup ∧ ∀ op ∈ ops, isPushOrPop op = true

lemma mapGet_nil (k : Nat) : mapGet [] k = none := rfl

lemma mapGet_cons (k' : Nat) (vh' : GenHolder) (m : List (Nat × GenHolder)) (k : Nat) :
    mapGet ((k', vh') :: m) k = if k' = k then some vh' else mapGet m k := rfl

lemma mapGet_eq_none_iff (m : List (Nat × GenHolder)) (k : Nat) :
    mapGet m k = none ↔ k ∉ mapKeys m := by
  induction m with
  | nil => simp [mapGet, mapKeys]
  | cons p rest ih =>
      obtain ⟨k', vh'⟩ := p
      by_cases h : k' = k
      · subst h; simp [mapGet, mapKeys]
      · simp [mapGet, mapKeys, h, Ne.symm h] at ih ⊢
        exact ih

lemma mem_of_mapGet (m : List (Nat × GenHolder)) (k : Nat) (vh : GenHolder)
    (h : mapGet m k = some vh) : (k, vh) ∈ m := by
  induction m with
  | nil => simp [mapGet] at h
  | cons p rest ih =>
      obtain ⟨k', vh'⟩ := p
      by_cases hk : k' = k
      · subst hk
        simp [mapGet] at h
        simp [h]
      · simp [mapGet, hk] at h
        exact List.mem_cons_of_mem _ (ih h)

lemma mem_keys_of_mem (m : List (Nat × GenHolder)) (p : Nat × GenHolder)
    (h : p ∈ m) : p.1 ∈ mapKeys m :=
  List.mem_map_of_mem Prod.fst h

lemma mapGet_isSome_iff (m : List (Nat × GenHolder)) (k : Nat) :
    (mapGet m k).isSome = true ↔ k ∈ mapKeys m := by
  cases h : mapGet m k with
  | none =>
      simp only [Option.isSome_none, Bool.false_eq_true, false_iff]
      exact (mapGet_eq_none_iff m k).mp h
  | some vh =>
      simp only [Option.isSome_some, true_iff]
      exact mem_keys_of_mem m (k, vh) (mem_of_mapGet m k vh h)

lemma mapGet_of_mem (m : List (Nat × GenHolder)) (k : Nat) (vh : GenHolder)
    (hd : (mapKeys m).Nodup) (h : (k, vh) ∈ m) : mapGet m k = some vh := by
  induction m with
  | nil => simp at h
  | cons p rest ih =>
      obtain ⟨k', vh'⟩ := p
      simp [mapKeys] at hd
      rcases List.mem_cons.mp h with h1 | h1
      · rw [Prod.mk.injEq] at h1
        obtain ⟨rfl, rfl⟩ := h1
        simp [mapGet]
      · by_cases hk : k' = k
        · subst hk
          exact absurd (mem_keys_of_mem rest (k', vh) h1) (by simpa [mapKeys] using hd.1)
        · simp [mapGet, hk]
          exact ih hd.2 h1

lemma mapGet_mapInsert_self (m : List (Nat × GenHolder)) (k : Nat) (vh : GenHolder) :
    mapGet (mapInsert m k vh).1 k = some vh := by
  induction m with
  | nil => simp [mapInsert, mapGet]
  | cons p rest ih =>
      obtain ⟨k', vh'⟩ := p
      by_cases h : k' = k
      · subst h; simp [mapInsert, mapGet]
      · simp [mapInsert, mapGet, h, ih]

lemma mapGet_mapInsert_ne (m : List (Nat × GenHolder)) (k k' : Nat) (vh : GenHolder)
    (h : k' ≠ k) : mapGet (mapInsert m k vh).1 k' = mapGet m k' := by
  induction m with
  | nil => simp [mapInsert, mapGet, Ne.symm h]
  | cons p rest ih =>
      obtain ⟨k'', vh''⟩ := p
      by_cases hk : k'' = k
      · subst hk
        simp [mapInsert, mapGet, Ne.symm h]
      · simp [mapInsert, mapGet, hk, ih]

lemma mapInsert_isNew (m : List (Nat × GenHolder)) (k : Nat) (vh : GenHolder) :
    (mapInsert m k vh).2 = (mapGet m k).isNone := by
  induction m with
  | nil => simp [mapInsert, mapGet]
  | cons p rest ih =>
      obtain ⟨k', vh'⟩ := p
      by_cases h : k' = k
      · subst h; simp [mapInsert, mapGet]
      · simp [mapInsert, mapGet, h, ih]

lemma mem_mapInsert (m : List (Nat × GenHolder)) (k : Nat) (vh : GenHolder)
    (p : Nat × GenHolder) (h : p ∈ (mapInsert m k vh).1) : p ∈ m ∨ p = (k, vh) := by
  induction m with
  | nil => simp [mapInsert] at h; simp [h]
  | cons q rest ih =>
      obtain ⟨k', vh'⟩ := q
      by_cases hk : k' = k
      · subst hk
        simp [mapInsert] at h
        rcases h with h | h
        · right; simp [h]
        · left; exact List.mem_cons_of_mem _ h
      · simp [mapInsert, hk] at h
        rcases h with h | h
        · left; simp [h]
        · rcases ih h with h1 | h1
          · left; exact List.mem_cons_of_mem _ h1
          · right; exact h1

lemma mapKeys_mapInsert (m : List (Nat × GenHolder)) (k : Nat) (vh : GenHolder) :
    mapKeys (mapInsert m k vh).1 =
      if k ∈ mapKeys m then mapKeys m else mapKeys m ++ [k] := by
  induction m with
  | nil => simp [mapInsert, mapKeys]
  | cons p rest ih =>
      obtain ⟨k', vh'⟩ := p
      by_cases h : k' = k
      · subst h; simp [mapInsert, mapKeys]
      · simp only [mapInsert, if_neg h, mapKeys, List.map_cons] at ih ⊢
        rw [ih]
        by_cases hm : k ∈ List.map Prod.fst rest
        · simp [hm, Ne.symm h]
        · simp [hm, Ne.symm h]

lemma mapGet_mapSetGen_self (m : List (Nat × GenHolder)) (k g : Nat) :
    mapGet (mapSetGen m k g) k = (mapGet m k).map (fun vh => ⟨g, vh.value⟩) := by
  induction m with
  | nil => simp [mapSetGen, mapGet]
  | cons p rest ih =>
      obtain ⟨k', vh'⟩ := p
      by_cases h : k' = k
      · subst h; simp [mapSetGen, mapGet]
      · simp [mapSetGen, mapGet, h, ih]

lemma mapGet_mapSetGen_ne (m : List (Nat × GenHolder)) (k k' g : Nat)
    (h : k' ≠ k) : mapGet (mapSetGen m k g) k' = mapGet m k' := by
  induction m with
  | nil => simp [mapSetGen]
  | cons p rest ih =>
      obtain ⟨k'', vh''⟩ := p
      by_cases hk : k'' = k
      · subst hk
        simp [mapSetGen, mapGet, Ne.symm h]
      · simp [mapSetGen, mapGet, hk, ih]

lemma mapKeys_mapSetGen (m : List (Nat × GenHolder)) (k g : Nat) :
    mapKeys (mapSetGen m k g) = mapKeys m := by
  induction m with
  | nil => simp [mapSetGen]
  | cons p rest ih =>
      obtain ⟨k', vh'⟩ := p
      by_cases h : k' = k
      · subst h; simp [mapSetGen, mapKeys]
      · simp [mapSetGen, mapKeys, h] at ih ⊢
        exact ih

lemma mem_mapSetGen (m : List (Nat × GenHolder)) (k g : Nat)
    (p : Nat × GenHolder) (h : p ∈ mapSetGen m k g) :
    p ∈ m ∨ (p.1 = k ∧ p.2.generation = g ∧ ∃ q ∈ m, q.1 = k ∧ q.2.value = p.2.value) := by
  induction m with
  | nil => simp [mapSetGen] at h
  | cons q rest ih =>
      obtain ⟨k', vh'⟩ := q
      by_cases hk : k' = k
      · subst hk
        simp [mapSetGen] at h
        rcases h with h | h
        · exact Or.inr ⟨by simp [h], by simp [h],
            ⟨(k', vh'), List.mem_cons_self _ _, rfl, by simp [h]⟩⟩
        · exact Or.inl (List.mem_cons_of_mem _ h)
      · simp [mapSetGen, hk] at h
        rcases h with h | h
        · exact Or.inl (by simp [h])
        · rcases ih h with h1 | ⟨h1, h2, q, hq, h3, h4⟩
          · exact Or.inl (List.mem_cons_of_mem _ h1)
          · exact Or.inr ⟨h1, h2, ⟨q, List.mem_cons_of_mem _ hq, h3, h4⟩⟩

lemma mapRemove_sublist (m : List (Nat × GenHolder)) (k : Nat) :
    List.Sublist (mapRemove m k) m := by
  induction m with
  | nil => simp [mapRemove]
  | cons p rest ih =>
      obtain ⟨k', vh'⟩ := p
      by_cases h : k' = k
      · subst h
        simp only [mapRemove, if_pos rfl]
        exact List.sublist_cons_of_sublist _ (List.Sublist.refl rest)
      · simp only [mapRemove, if_neg h]
        exact List.Sublist.cons₂ _ ih

lemma mapGet_mapRemove_self (m : List (Nat × GenHolder)) (k : Nat)
    (hd : (mapKeys m).Nodup) : mapGet (mapRemove m k) k = none := by
  induction m with
  | nil => simp [mapRemove, mapGet]
  | cons p rest ih =>
      obtain ⟨k', vh'⟩ := p
      simp [mapKeys] at hd
      by_cases h : k' = k
      · subst h
        simp only [mapRemove, if_pos rfl]
        rw [mapGet_eq_none_iff]
        simpa [mapKeys] using hd.1
      · simp [mapRemove, mapGet, h]
        exact ih hd.2

lemma mapGet_mapRemove_ne (m : List (Nat × GenHolder)) (k k' : Nat)
    (h : k' ≠ k) : mapGet (mapRemove m k) k' = mapGet m k' := by
  induction m with
  | nil => simp [mapRemove]
  | cons p rest ih =>
      obtain ⟨k'', vh''⟩ := p
      by_cases hk : k'' = k
      · subst hk
        simp [mapRemove, mapGet, Ne.symm h]
      · simp [mapRemove, mapGet, hk, ih]

lemma liveCountM_nil : liveCountM [] = 0 := rfl

lemma liveCountM_cons (p : Nat × GenHolder) (m : List (Nat × GenHolder)) :
    liveCountM (p :: m) = (if p.2.generation = 0 then 0 else 1) + liveCountM m := by
  by_cases h : p.2.generation = 0 <;>
    simp [liveCountM, List.filter_cons, h, Nat.add_comm]

lemma liveCountM_mapInsert_none (m : List (Nat × GenHolder)) (k : Nat)
    (vh : GenHolder) (h : mapGet m k = none) :
    liveCountM (mapInsert m k vh).1 =
      liveCountM m + (if vh.generation = 0 then 0 else 1) := by
  induction m with
  | nil => simp [mapInsert, liveCountM_cons, liveCountM_nil, Nat.add_comm]
  | cons p rest ih =>
      obtain ⟨k', vh'⟩ := p
      by_cases hk : k' = k
      · subst hk; simp [mapGet] at h
      · simp [mapGet, hk] at h
        simp [mapInsert, hk, liveCountM_cons, ih h]
        omega

lemma liveCountM_mapInsert_some (m : List (Nat × GenHolder)) (k : Nat)
    (vh old : GenHolder) (h : mapGet m k = some old) :
    liveCountM (mapInsert m k vh).1 + (if old.generation = 0 then 0 else 1) =
      liveCountM m + (if vh.generation = 0 then 0 else 1) := by
  induction m with
  | nil => simp [mapGet] at h
  | cons p rest ih =>
      obtain ⟨k', vh'⟩ := p
      by_cases hk : k' = k
      · subst hk
        simp [mapGet] at h
        subst h
        simp [mapInsert, liveCountM_cons]
        omega
      · simp [mapGet, hk] at h
        have := ih h
        simp [mapInsert, hk, liveCountM_cons]
        omega

lemma liveCountM_mapSetGen (m : List (Nat × GenHolder)) (k g : Nat)
    (old : GenHolder) (h : mapGet m k = some old) :
    liveCountM (mapSetGen m k g) + (if old.generation = 0 then 0 else 1) =
      liveCountM m + (if g = 0 then 0 else 1) := by
  induction m with
  | nil => simp [mapGet] at h
  | cons p rest ih =>
      obtain ⟨k', vh'⟩ := p
      by_cases hk : k' = k
      · subst hk
        simp [mapGet] at h
        subst h
        simp [mapSetGen, liveCountM_cons]
        omega
      · simp [mapGet, hk] at h
        have := ih h
        simp [mapSetGen, hk, liveCountM_cons]
        omega

lemma liveCountM_mapRemove (m : List (Nat × GenHolder)) (k : Nat)
    (old : GenHolder) (h : mapGet m k = some old) :
    liveCountM (mapRemove m k) + (if old.generation = 0 then 0 else 1) =
      liveCountM m := by
  induction m with
  | nil => simp [mapGet] at h
  | cons p rest ih =>
      obtain ⟨k', vh'⟩ := p
      by_cases hk : k' = k
      · subst hk
        simp [mapGet] at h
        subst h
        simp [mapRemove, liveCountM_cons]
        omega
      · simp [mapGet, hk] at h
        have := ih h
        simp [mapRemove, hk, liveCountM_cons]
        omega

lemma popFrontGo_spec (m : List (Nat × GenHolder)) (len : Nat)
    (ord : List GenHolder) :
    (popFrontGo m len ord = ⟨none, m, [], len, false⟩ ∧
      ∀ t ∈ ord, curEntry m t = none) ∨
    (∃ pre t rest vh, ord = pre ++ t :: rest ∧
      (∀ u ∈ pre, curEntry m u = none) ∧
      mapGet m t.value = some vh ∧ vh.generation = t.generation ∧
      popFrontGo m len ord =
        ⟨some (t.value, t.generation, vh.value), mapRemove m t.value,
          rest, len - 1, len == 0⟩) := by
  induction ord with
  | nil => exact Or.inl ⟨rfl, by simp⟩
  | cons t rest ih =>
      cases h : mapGet m t.value with
      | none =>
          rcases ih with ⟨h1, h2⟩ | ⟨pre, t', rest', vh, he, hpre, hg, hgen, hres⟩
          · refine Or.inl ⟨?_, ?_⟩
            · simpa [popFrontGo, h] using h1
            · intro u hu
              rcases List.mem_cons.mp hu with rfl | hu
              · simp [curEntry, h]
              · exact h2 u hu
          · refine Or.inr ⟨t :: pre, t', rest', vh, by simp [he], ?_, hg, hgen, ?_⟩
            · intro u hu
              rcases List.mem_cons.mp hu with rfl | hu
              · simp [curEntry, h]
              · exact hpre u hu
            · simpa [popFrontGo, h] using hres
      | some vh =>
          by_cases hgen : vh.generation = t.generation
          · exact Or.inr ⟨[], t, rest, vh, by simp, by simp, h, hgen,
              by simp [popFrontGo, h, hgen]⟩
          · rcases ih with ⟨h1, h2⟩ | ⟨pre, t', rest', vh', he, hpre, hg', hgen', hres⟩
            · refine Or.inl ⟨?_, ?_⟩
              · simpa [popFrontGo, h, hgen] using h1
              · intro u hu
                rcases List.mem_cons.mp hu with rfl | hu
                · simp [curEntry, h, hgen]
                · exact h2 u hu
            · refine Or.inr ⟨t :: pre, t', rest', vh', by simp [he], ?_, hg', hgen', ?_⟩
              · intro u hu
                rcases List.mem_cons.mp hu with rfl | hu
                · simp [curEntry, h, hgen]
                · exact hpre u hu
              · simpa [popFrontGo, h, hgen] using hres

lemma WF_new : WF new := by
  refine ⟨?_, ?_, ?_, ?_, ?_, ?_⟩ <;> simp [new, mapKeys]

lemma WF_push_back (s : OrdHash) (k v : Nat) (h : WF s) :
    WF (push_back s k v) := by
  refine ⟨?_, ?_, ?_, ?_, ?_, ?_⟩
  · show (mapKeys (mapInsert s.map k ⟨s.generation + 1, v⟩).1).Nodup
    rw [mapKeys_mapInsert]
    by_cases hm : k ∈ mapKeys s.map
    · simpa [hm] using h.nodupKeys
    · simp [hm, List.nodup_append, h.nodupKeys]
  · show (s.order ++ [(⟨s.generation + 1, k⟩ : GenHolder)]).Pairwise
      (fun a b => a.generation < b.generation)
    rw [List.pairwise_append]
    refine ⟨h.orderSorted, by simp, ?_⟩
    intro a ha b hb
    simp at hb
    subst hb
    exact Nat.lt_succ_of_le (h.orderLe a ha)
  · intro t ht
    rcases List.mem_append.mp ht with ht | ht
    · exact h.orderPos t ht
    · simp at ht; subst ht; simp
  · intro t ht
    rcases List.mem_append.mp ht with ht | ht
    · exact Nat.le_succ_of_le (h.orderLe t ht)
    · simp at ht; subst ht; simp [push_back]
  · intro p hp
    rcases mem_mapInsert _ _ _ _ hp with hp | hp
    · exact Nat.le_succ_of_le (h.slotLe p hp)
    · subst hp; simp [push_back]
  · intro p hp hlive
    rcases mem_mapInsert _ _ _ _ hp with hp | hp
    · exact List.mem_append_left _ (h.liveTag p hp hlive)
    · subst hp
      exact List.mem_append_right _ (by simp)

lemma WF_mark_unused (s : OrdHash) (k : Nat) (h : WF s) :
    WF (mark_unused s k).2 := by
  cases hg : mapGet s.map k with
  | none => simp only [mark_unused, hg]; exact h
  | some vh =>
      by_cases hz : vh.generation ≠ 0
      · simp only [mark_unused, hg]
        rw [if_pos hz]
        refine ⟨?_, h.orderSorted, h.orderPos, h.orderLe, ?_, ?_⟩
        · show (mapKeys (mapSetGen s.map k 0)).Nodup
          rw [mapKeys_mapSetGen]; exact h.nodupKeys
        · intro p hp
          rcases mem_mapSetGen _ _ _ _ hp with hp | ⟨_, hpg, _⟩
          · exact h.slotLe p hp
          · simp [hpg]
        · intro p hp hlive
          rcases mem_mapSetGen _ _ _ _ hp with hp | ⟨_, hpg, _⟩
          · exact h.liveTag p hp hlive
          · exact absurd hpg hlive
      · simp only [mark_unused, hg]
        rw [if_neg hz]
        exact h

lemma WF_refresh (s : OrdHash) (k : Nat) (h : WF s) :
    WF (refresh s k).2 := by
  cases hg : mapGet s.map k with
  | none => simp only [refresh, hg]; exact h
  | some gh =>
      simp only [refresh, hg]
      refine ⟨?_, ?_, ?_, ?_, ?_, ?_⟩
      · show (mapKeys (mapSetGen s.map k (s.generation + 1))).Nodup
        rw [mapKeys_mapSetGen]; exact h.nodupKeys
      · show (s.order ++ [(⟨s.generation + 1, k⟩ : GenHolder)]).Pairwise
          (fun a b => a.generation < b.generation)
        rw [List.pairwise_append]
        refine ⟨h.orderSorted, by simp, ?_⟩
        intro a ha b hb
        simp at hb
        subst hb
        exact Nat.lt_succ_of_le (h.orderLe a ha)
      · intro t ht
        rcases List.mem_append.mp ht with ht | ht
        · exact h.orderPos t ht
        · simp at ht; subst ht; simp
      · intro t ht
        rcases List.mem_append.mp ht with ht | ht
        · exact Nat.le_succ_of_le (h.orderLe t ht)
        · simp at ht; subst ht; simp
      · intro p hp
        rcases mem_mapSetGen _ _ _ _ hp with hp | ⟨_, hpg, _⟩
        · exact Nat.le_succ_of_le (h.slotLe p hp)
        · simp [hpg]
      · intro p hp hlive
        rcases mem_mapSetGen _ _ _ _ hp with hp | ⟨hpk, hpg, _⟩
        · exact List.mem_append_left _ (h.liveTag p hp hlive)
        · refine List.mem_append_right _ ?_
          simp [hpk, hpg]

lemma no_live_of_all_stale (m : List (Nat × GenHolder)) (ord : List GenHolder)
    (hd : (mapKeys m).Nodup)
    (htag : ∀ p ∈ m, p.2.generation ≠ 0 → (⟨p.2.generation, p.1⟩ : GenHolder) ∈ ord)
    (hstale : ∀ t ∈ ord, curEntry m t = none) :
    ∀ p ∈ m, p.2.generation = 0 := by
  intro p hp
  by_contra hlive
  have ht := htag p hp hlive
  have hc := hstale _ ht
  rw [curEntry] at hc
  simp only [mapGet_of_mem m p.1 p.2 hd (by simpa using hp)] at hc
  simp at hc

lemma WF_pop_front (s : OrdHash) (h : WF s) : WF (pop_front s).2 := by
  rcases popFrontGo_spec s.map s.length s.order with ⟨h1, h2⟩ |
    ⟨pre, t, rest, vh, he, hpre, hg, hgen, hres⟩
  · simp only [pop_front]
    rw [h1]
    refine ⟨h.nodupKeys, by simp, by simp, by simp, h.slotLe, ?_⟩
    intro p hp hlive
    exact absurd (no_live_of_all_stale s.map s.order h.nodupKeys h.liveTag h2 p hp) hlive
  · simp only [pop_front]
    rw [hres]
    have hrest_sub : List.Sublist rest s.order := by
      rw [he]
      exact (List.sublist_cons_of_sublist t (List.Sublist.refl rest)).trans
        (List.sublist_append_right pre _)
    refine ⟨?_, ?_, ?_, ?_, ?_, ?_⟩
    · show (mapKeys (mapRemove s.map t.value)).Nodup
      exact h.nodupKeys.sublist ((mapRemove_sublist s.map t.value).map Prod.fst)
    · exact h.orderSorted.sublist hrest_sub
    · intro u hu; exact h.orderPos u (hrest_sub.subset hu)
    · intro u hu; exact h.orderLe u (hrest_sub.subset hu)
    · intro p hp
      exact h.slotLe p ((mapRemove_sublist s.map t.value).subset hp)
    · intro p hp hlive
      have hpm : p ∈ s.map := (mapRemove_sublist s.map t.value).subset hp
      have hpk : p.1 ≠ t.value := by
        intro hkeq
        have hnd : (mapKeys (mapRemove s.map t.value)).Nodup :=
          h.nodupKeys.sublist ((mapRemove_sublist s.map t.value).map Prod.fst)
        have : mapGet (mapRemove s.map t.value) p.1 = some p.2 :=
          mapGet_of_mem _ _ _ hnd (by simpa using hp)
        rw [hkeq, mapGet_mapRemove_self s.map t.value h.nodupKeys] at this
        exact Option.noConfusion this
      have htag := h.liveTag p hpm hlive
      rw [he] at htag
      rcases List.mem_append.mp htag with htag | htag
      · have hc := hpre _ htag
        rw [curEntry] at hc
        simp only [mapGet_of_mem s.map p.1 p.2 h.nodupKeys (by simpa using hpm)] at hc
        simp at hc
      · rcases List.mem_cons.mp htag with htag | htag
        · exact absurd (congrArg GenHolder.value htag) hpk
        · exact htag

lemma WF_applyOp (s : OrdHash) (op : Op) (h : WF s) : WF (applyOp s op) := by
  cases op with
  | push k v => exact WF_push_back s k v h
  | markUnused k => exact WF_mark_unused s k h
  | refreshOp k => exact WF_refresh s k h
  | popOp => exact WF_pop_front s h

lemma WF_foldl (ops : List Op) (s : OrdHash) (h : WF s) :
    WF (List.foldl applyOp s ops) := by
  induction ops generalizing s with
  | nil => exact h
  | cons op rest ih => exact ih _ (WF_applyOp s op h)

lemma WF_exec (ops : List Op) : WF (exec ops) :=
  WF_foldl ops new WF_new

lemma peekFrontGo_eq_popFrontGo (m : List (Nat × GenHolder)) (len : Nat)
    (ord : List GenHolder) :
    peekFrontGo m ord = ((popFrontGo m len ord).res).map (fun r => (r.1, r.2.2)) := by
  induction ord with
  | nil => rfl
  | cons t rest ih =>
      cases h : mapGet m t.value with
      | none => simpa [peekFrontGo, popFrontGo, h] using ih
      | some vh =>
          by_cases hg : vh.generation = t.generation
          · simp [peekFrontGo, popFrontGo, h, hg]
          · simpa [peekFrontGo, popFrontGo, h, hg] using ih

lemma drainGo_popFrontGo (m : List (Nat × GenHolder)) (len : Nat)
    (ord : List GenHolder) :
    drainGo m ord =
      match (popFrontGo m len ord).res with
      | none => []
      | some r =>
          r :: drainGo (popFrontGo m len ord).map (popFrontGo m len ord).order := by
  induction ord with
  | nil => rfl
  | cons t rest ih =>
      cases h : mapGet m t.value with
      | none => simpa [drainGo, popFrontGo, h] using ih
      | some vh =>
          by_cases hg : vh.generation = t.generation
          · simp [drainGo, popFrontGo, h, hg]
          · simpa [drainGo, popFrontGo, h, hg] using ih

lemma drain_pop_front_step (s : OrdHash) :
    drain s =
      match (popFrontGo s.map s.length s.order).res with
      | none => []
      | some r => r :: drain (pop_front s).2 := by
  have h := drainGo_popFrontGo s.map s.length s.order
  cases hr : (popFrontGo s.map s.length s.order).res with
  | none => simpa [drain, hr] using h
  | some r => simpa [drain, pop_front, hr] using h

lemma pop_front_res_eq (s : OrdHash) :
    (pop_front s).1 =
      ((popFrontGo s.map s.length s.order).res).map (fun r => (r.1, r.2.2)) := rfl

lemma mem_drainGo (m : List (Nat × GenHolder)) (ord : List GenHolder)
    (r : Nat × Nat × Nat) (h : r ∈ drainGo m ord) :
    (⟨r.2.1, r.1⟩ : GenHolder) ∈ ord ∧ r.1 ∈ mapKeys m := by
  induction ord generalizing m with
  | nil => simp [drainGo] at h
  | cons t rest ih =>
      cases hg : mapGet m t.value with
      | none =>
          simp only [drainGo, hg] at h
          obtain ⟨h1, h2⟩ := ih m h
          exact ⟨List.mem_cons_of_mem _ h1, h2⟩
      | some vh =>
          by_cases he : vh.generation = t.generation
          · simp only [drainGo, hg, if_pos he] at h
            rcases List.mem_cons.mp h with h | h
            · subst h
              refine ⟨by simp, ?_⟩
              exact (mapGet_isSome_iff m t.value).mp (by simp [hg])
            · obtain ⟨h1, h2⟩ := ih (mapRemove m t.value) h
              refine ⟨List.mem_cons_of_mem _ h1, ?_⟩
              have : (mapKeys (mapRemove m t.value)).Sublist (mapKeys m) :=
                (mapRemove_sublist m t.value).map Prod.fst
              exact this.subset h2
          · simp only [drainGo, hg, if_neg he] at h
            obtain ⟨h1, h2⟩ := ih m h
            exact ⟨List.mem_cons_of_mem _ h1, h2⟩

lemma drainGo_keys_nodup (m : List (Nat × GenHolder)) (ord : List GenHolder)
    (hd : (mapKeys m).Nodup) :
    ((drainGo m ord).map (fun r => r.1)).Nodup := by
  induction ord generalizing m with
  | nil => simp [drainGo]
  | cons t rest ih =>
      cases hg : mapGet m t.value with
      | none => simpa [drainGo, hg] using ih m hd
      | some vh =>
          by_cases he : vh.generation = t.generation
          · simp only [drainGo, hg, if_pos he, List.map_cons, List.nodup_cons]
            have hnd : (mapKeys (mapRemove m t.value)).Nodup :=
              hd.sublist ((mapRemove_sublist m t.value).map Prod.fst)
            refine ⟨?_, ih (mapRemove m t.value) hnd⟩
            intro hmem
            obtain ⟨r, hr, hrk⟩ := List.mem_map.mp hmem
            have h2 := (mem_drainGo _ _ r hr).2
            rw [hrk] at h2
            have : mapGet (mapRemove m t.value) t.value = none :=
              mapGet_mapRemove_self m t.value hd
            rw [mapGet_eq_none_iff] at this
            exact this h2
          · simpa [drainGo, hg, if_neg he] using ih m hd

lemma drainGo_stamps_pairwise (m : List (Nat × GenHolder)) (ord : List GenHolder)
    (hp : ord.Pairwise (fun a b => a.generation < b.generation)) :
    (drainGo m ord).Pairwise (fun a b => a.2.1 < b.2.1) := by
  induction ord generalizing m with
  | nil => simp [drainGo]
  | cons t rest ih =>
      obtain ⟨h1, h2⟩ := List.pairwise_cons.mp hp
      cases hg : mapGet m t.value with
      | none => simpa [drainGo, hg] using ih m h2
      | some vh =>
          by_cases he : vh.generation = t.generation
          · simp only [drainGo, hg, if_pos he]
            refine List.Pairwise.cons ?_ (ih (mapRemove m t.value) h2)
            intro r hr
            have hmem := (mem_drainGo _ _ r hr).1
            simpa using h1 _ hmem
          · simpa [drainGo, hg, if_neg he] using ih m h2

lemma drainGo_eq_filterMap (m : List (Nat × GenHolder)) (ord : List GenHolder)
    (hd : (mapKeys m).Nodup)
    (hp : ord.Pairwise (fun a b => a.generation < b.generation)) :
    drainGo m ord = ord.filterMap (curEntry m) := by
  induction ord generalizing m with
  | nil => simp [drainGo]
  | cons t rest ih =>
      obtain ⟨h1, h2⟩ := List.pairwise_cons.mp hp
      cases hg : mapGet m t.value with
      | none => simp [drainGo, List.filterMap_cons, curEntry, hg, ih m hd h2]
      | some vh =>
          by_cases he : vh.generation = t.generation
          · have hnd : (mapKeys (mapRemove m t.value)).Nodup :=
              hd.sublist ((mapRemove_sublist m t.value).map Prod.fst)
            have hcongr : ∀ u ∈ rest, curEntry (mapRemove m t.value) u = curEntry m u := by
              intro u hu
              by_cases hk : u.value = t.value
              · have hnone : mapGet (mapRemove m t.value) u.value = none := by
                  rw [hk]; exact mapGet_mapRemove_self m t.value hd
                have hlt : t.generation < u.generation := h1 u hu
                rw [curEntry, curEntry, hnone, hk, hg]
                have : ¬ vh.generation = u.generation := by omega
                simp [this]
              · rw [curEntry, curEntry, mapGet_mapRemove_ne m t.value u.value hk]
            calc drainGo m (t :: rest)
                = (t.value, t.generation, vh.value) :: drainGo (mapRemove m t.value) rest := by
                  simp [drainGo, hg, he]
              _ = (t.value, t.generation, vh.value) ::
                    rest.filterMap (curEntry (mapRemove m t.value)) := by
                  rw [ih (mapRemove m t.value) hnd h2]
              _ = (t.value, t.generation, vh.value) :: rest.filterMap (curEntry m) := by
                  rw [List.filterMap_congr hcongr]
              _ = (t :: rest).filterMap (curEntry m) := by
                  rw [List.filterMap_cons]
                  simp [curEntry, hg, he]
          · simp [drainGo, List.filterMap_cons, curEntry, hg, he, ih m hd h2]

lemma pop_front_order_shrinks (s : OrdHash) :
    s.order = [] ∨ (pop_front s).2.order.length < s.order.length := by
  rcases popFrontGo_spec s.map s.length s.order with ⟨h1, _⟩ |
    ⟨pre, t, rest, vh, he, _, _, _, hres⟩
  · cases ho : s.order with
    | nil => exact Or.inl rfl
    | cons a l =>
        right
        have hord : (pop_front s).2.order = [] := by simp [pop_front, h1]
        rw [hord]
        simp [ho]
  · right
    have hord : (pop_front s).2.order = rest := by simp [pop_front, hres]
    rw [hord, he]
    simp only [List.length_append, List.length_cons]
    omega

lemma pop_front_order_nil (s : OrdHash) (h : s.order = []) :
    (pop_front s).1 = none ∧ (pop_front s).2.order = [] := by
  simp [pop_front, h, popFrontGo]

lemma popN_order_nil (n : Nat) (s : OrdHash) (h : s.order.length ≤ n) :
    (popN s n).order = [] := by
  induction n generalizing s with
  | zero =>
      simp only [popN]
      exact List.eq_nil_of_length_eq_zero (Nat.le_zero.mp h)
  | succ n ih =>
      simp only [popN]
      rcases pop_front_order_shrinks s with h0 | h0
      · exact ih _ (by simp [(pop_front_order_nil s h0).2])
      · exact ih _ (by omega)

lemma liveCountM_le_order_length (s : OrdHash) (h : WF s) :
    liveCountM s.map ≤ s.order.length := by
  have hkeysnd :
      ((s.map.filter (fun p => p.2.generation != 0)).map Prod.fst).Nodup := by
    have hsub :
        ((s.map.filter (fun p => p.2.generation != 0)).map Prod.fst).Sublist
          (s.map.map Prod.fst) :=
      (List.filter_sublist _).map Prod.fst
    exact h.nodupKeys.sublist hsub
  have hmapnd :
      ((s.map.filter (fun p => p.2.generation != 0)).map
        (fun p => (⟨p.2.generation, p.1⟩ : GenHolder))).Nodup := by
    apply List.Nodup.of_map GenHolder.value
    rw [List.map_map]
    exact hkeysnd
  have hsubset :
      ((s.map.filter (fun p => p.2.generation != 0)).map
        (fun p => (⟨p.2.generation, p.1⟩ : GenHolder))) ⊆ s.order := by
    intro x hx
    obtain ⟨p, hp, rfl⟩ := List.mem_map.mp hx
    have hpm : p ∈ s.map := List.mem_of_mem_filter hp
    have hlive : p.2.generation ≠ 0 := by simpa using List.of_mem_filter hp
    exact h.liveTag p hpm hlive
  have hsp := List.subperm_of_subset hmapnd hsubset
  have hle := hsp.length_le
  simpa [liveCountM] using hle

lemma panicked_of_applyOp (s : OrdHash) (op : Op)
    (h : (applyOp s op).panicked = false) : s.panicked = false := by
  cases op with
  | push k v => simpa [applyOp, push_back] using h
  | markUnused k =>
      cases hg : mapGet s.map k with
      | none => simpa [applyOp, mark_unused, hg] using h
      | some vh =>
          by_cases hz : vh.generation ≠ 0
          · simp only [applyOp, mark_unused, hg] at h
            rw [if_pos hz] at h
            simp at h
            exact h.1
          · simp only [applyOp, mark_unused, hg] at h
            rw [if_neg hz] at h
            exact h
  | refreshOp k =>
      cases hg : mapGet s.map k with
      | none => simpa [applyOp, refresh, hg] using h
      | some gh => simpa [applyOp, refresh, hg] using h
  | popOp =>
      simp only [applyOp, pop_front] at h
      simp at h
      exact h.1

lemma length_le_liveCount_step (s : OrdHash) (op : Op) (hwf : WF s)
    (h : s.panicked = false → s.length ≤ liveCountM s.map)
    (hp : (applyOp s op).panicked = false) :
    (applyOp s op).length ≤ liveCountM (applyOp s op).map := by
  have hp0 : s.panicked = false := panicked_of_applyOp s op hp
  have hlen := h hp0
  cases op with
  | push k v =>
      simp only [applyOp, push_back]
      cases hg : mapGet s.map k with
      | none =>
          have hnew : (mapInsert s.map k ⟨s.generation + 1, v⟩).2 = true := by
            rw [mapInsert_isNew, hg]; rfl
          rw [hnew, if_pos rfl]
          have he := liveCountM_mapInsert_none s.map k ⟨s.generation + 1, v⟩ hg
          simp at he
          omega
      | some old =>
          have hnew : (mapInsert s.map k ⟨s.generation + 1, v⟩).2 = false := by
            rw [mapInsert_isNew, hg]; rfl
          rw [hnew]
          simp only [Bool.false_eq_true, if_false]
          have he := liveCountM_mapInsert_some s.map k ⟨s.generation + 1, v⟩ old hg
          by_cases hz : old.generation = 0 <;> simp [hz] at he <;> omega
  | markUnused k =>
      cases hg : mapGet s.map k with
      | none => simp only [applyOp, mark_unused, hg]; exact hlen
      | some vh =>
          by_cases hz : vh.generation ≠ 0
          · simp only [applyOp, mark_unused, hg] at hp ⊢
            rw [if_pos hz] at hp ⊢
            dsimp only
            simp at hp
            have he := liveCountM_mapSetGen s.map k 0 vh hg
            simp [hz] at he
            have hlz : s.length ≠ 0 := by
              intro h0
              exact absurd (by simp [h0] : (s.length == 0) = true) (by simp [hp.2])
            omega
          · simp only [applyOp, mark_unused, hg]
            rw [if_neg hz]
            exact hlen
  | refreshOp k =>
      cases hg : mapGet s.map k with
      | none => simp only [applyOp, refresh, hg]; exact hlen
      | some gh =>
          simp only [applyOp, refresh, hg]
          have he := liveCountM_mapSetGen s.map k (s.generation + 1) gh hg
          simp at he
          by_cases hz : 0 = gh.generation
          · rw [if_pos hz]
            simp [← hz] at he
            omega
          · rw [if_neg hz]
            have hz' : ¬ gh.generation = 0 := fun h0 => hz h0.symm
            simp [hz'] at he
            omega
  | popOp =>
      rcases popFrontGo_spec s.map s.length s.order with ⟨h1, _⟩ |
        ⟨pre, t, rest, vh, he, _, hg, hgen, hres⟩
      · simp only [applyOp, pop_front]
        rw [h1]
        exact hlen
      · simp only [applyOp, pop_front] at hp ⊢
        rw [hres] at hp ⊢
        dsimp only
        simp at hp
        have hrem := liveCountM_mapRemove s.map t.value vh hg
        have htmem : t ∈ s.order := by rw [he]; simp
        have hpos : 1 ≤ t.generation := hwf.orderPos t htmem
        have hvz : ¬ vh.generation = 0 := by omega
        simp [hvz] at hrem
        have hlz : s.length ≠ 0 := by
          intro h0
          exact absurd (by simp [h0] : (s.length == 0) = true) (by simp [hp.2])
        omega

lemma length_le_liveCount_foldl (ops : List Op) (s : OrdHash) (hwf : WF s)
    (h : s.panicked = false → s.length ≤ liveCountM s.map)
    (hp : (List.foldl applyOp s ops).panicked = false) :
    (List.foldl applyOp s ops).length ≤ liveCountM (List.foldl applyOp s ops).map := by
  induction ops generalizing s with
  | nil => exact h hp
  | cons op rest ih =>
      exact ih (applyOp s op) (WF_applyOp s op hwf)
        (fun hq => length_le_liveCount_step s op hwf h hq) hp

lemma exec_length_le_liveCount (ops : List Op)
    (hp : (exec ops).panicked = false) :
    (exec ops).length ≤ liveCountM (exec ops).map :=
  length_le_liveCount_foldl ops new WF_new (fun _ => by simp [new, liveCountM]) hp

lemma fresh_foldl_used_eq_len (ops : List Op) (s : OrdHash)
    (hlen : s.length = s.order.length)
    (hcur : ∀ t ∈ s.order, (curEntry s.map t).isSome = true)
    (hnd : (s.order.map GenHolder.value).Nodup)
    (hwf : WF s)
    (hpk : (pushKeys ops).Nodup)
    (hfresh : ∀ k ∈ pushKeys ops, k ∉ mapKeys s.map)
    (hop : ∀ op ∈ ops, isPushOrPop op = true) :
    (List.foldl applyOp s ops).order.length = (List.foldl applyOp s ops).length := by
  induction ops generalizing s with
  | nil => exact hlen.symm
  | cons op rest ih =>
      have horder_keys : ∀ t ∈ s.order, t.value ∈ mapKeys s.map := by
        intro t ht
        have hs := hcur t ht
        rw [curEntry] at hs
        cases hg : mapGet s.map t.value with
        | none => rw [hg] at hs; simp at hs
        | some vh => exact (mapGet_isSome_iff s.map t.value).mp (by simp [hg])
      cases op with
      | push k v =>
          have hkfresh : k ∉ mapKeys s.map := hfresh k (by simp [pushKeys])
          have hgnone : mapGet s.map k = none := (mapGet_eq_none_iff s.map k).mpr hkfresh
          have hnew : (mapInsert s.map k ⟨s.generation + 1, v⟩).2 = true := by
            rw [mapInsert_isNew, hgnone]; rfl
          have hpk' : (pushKeys (Op.push k v :: rest)).Nodup := hpk
          simp only [pushKeys, List.nodup_cons] at hpk'
          simp only [List.foldl_cons]
          apply ih
          · show (push_back s k v).length = (push_back s k v).order.length
            simp only [push_back]
            rw [hnew, if_pos rfl]
            simp [hlen]
          · intro t ht
            simp only [applyOp, push_back] at ht
            rcases List.mem_append.mp ht with ht | ht
            · have htk : t.value ≠ k := by
                intro he
                exact hkfresh (he ▸ horder_keys t ht)
              show (curEntry (mapInsert s.map k ⟨s.generation + 1, v⟩).1 t).isSome = true
              rw [curEntry, mapGet_mapInsert_ne s.map k t.value ⟨s.generation + 1, v⟩ htk]
              have hs := hcur t ht
              rw [curEntry] at hs
              exact hs
            · simp at ht
              subst ht
              show (curEntry (mapInsert s.map k ⟨s.generation + 1, v⟩).1 ⟨s.generation + 1, k⟩).isSome = true
              rw [curEntry]
              simp [mapGet_mapInsert_self]
          · show ((s.order ++ [(⟨s.generation + 1, k⟩ : GenHolder)]).map GenHolder.value).Nodup
            rw [List.map_append]
            simp only [List.map_cons, List.map_nil]
            rw [List.nodup_append]
            refine ⟨hnd, by simp, ?_⟩
            intro a ha hb
            simp at hb
            subst hb
            obtain ⟨t, ht, htv⟩ := List.mem_map.mp ha
            apply hkfresh
            rw [← htv]
            exact horder_keys t ht
          · exact WF_applyOp s (.push k v) hwf
          · exact hpk'.2
          · intro k' hk'
            show k' ∉ mapKeys (mapInsert s.map k ⟨s.generation + 1, v⟩).1
            rw [mapKeys_mapInsert]
            rw [if_neg hkfresh]
            intro hmem
            rcases List.mem_append.mp hmem with hmem | hmem
            · exact hfresh k' (by simp [pushKeys, hk']) hmem
            · simp at hmem
              subst hmem
              exact hpk'.1 hk'
          · intro op hopm
            exact hop op (List.mem_cons_of_mem _ hopm)
      | markUnused k =>
          have := hop (.markUnused k) (List.mem_cons_self _ _)
          simp [isPushOrPop] at this
      | refreshOp k =>
          have := hop (.refreshOp k) (List.mem_cons_self _ _)
          simp [isPushOrPop] at this
      | popOp =>
          simp only [List.foldl_cons]
          rcases popFrontGo_spec s.map s.length s.order with ⟨h1, h2⟩ |
            ⟨pre, t, rest', vh, he, hpre, hg, hgen, hres⟩
          · have horder : s.order = [] := by
              cases ho : s.order with
              | nil => rfl
              | cons a l =>
                  have ha := hcur a (by simp [ho])
                  have hb := h2 a (by simp [ho])
                  rw [hb] at ha
                  simp at ha
            have hstate : applyOp s Op.popOp =
                ⟨s.map, [], s.generation, s.length, s.panicked || false⟩ := by
              simp only [applyOp, pop_front, h1]
            apply ih
            · rw [hstate]
              show s.length = ([] : List GenHolder).length
              rw [hlen, horder]
            · intro u hu
              rw [hstate] at hu
              simp at hu
            · rw [hstate]
              simp
            · exact WF_applyOp s .popOp hwf
            · simpa [pushKeys] using hpk
            · intro k' hk'
              rw [hstate]
              exact hfresh k' (by simpa [pushKeys] using hk')
            · intro op hopm
              exact hop op (List.mem_cons_of_mem _ hopm)
          · have hprenil : pre = [] := by
              cases hpp : pre with
              | nil => rfl
              | cons u pre' =>
                  have hu : u ∈ s.order := by simp [he, hpp]
                  have ha := hcur u hu
                  have hb := hpre u (by simp [hpp])
                  rw [hb] at ha
                  simp at ha
            subst hprenil
            simp only [List.nil_append] at he
            have hordkeys : (s.order.map GenHolder.value).Nodup := hnd
            rw [he] at hordkeys
            simp only [List.map_cons, List.nodup_cons] at hordkeys
            have hstate : applyOp s Op.popOp =
                ⟨mapRemove s.map t.value, rest', s.generation, s.length - 1,
                  s.panicked || (s.length == 0)⟩ := by
              simp only [applyOp, pop_front, hres]
            apply ih
            · rw [hstate]
              show s.length - 1 = rest'.length
              have : s.length = rest'.length + 1 := by
                rw [hlen, he]; simp
              omega
            · intro u hu
              rw [hstate] at hu ⊢
              have huk : u.value ≠ t.value := by
                intro heq
                exact hordkeys.1 (heq ▸ List.mem_map_of_mem GenHolder.value hu)
              show (curEntry (mapRemove s.map t.value) u).isSome = true
              rw [curEntry, mapGet_mapRemove_ne s.map t.value u.value huk]
              have hs := hcur u (by rw [he]; exact List.mem_cons_of_mem _ hu)
              rw [curEntry] at hs
              exact hs
            · rw [hstate]
              exact hordkeys.2
            · exact WF_applyOp s .popOp hwf
            · simpa [pushKeys] using hpk
            · intro k' hk'
              rw [hstate]
              intro hmem
              have hsub : (mapKeys (mapRemove s.map t.value)).Sublist (mapKeys s.map) :=
                (mapRemove_sublist s.map t.value).map Prod.fst
              exact hfresh k' (by simpa [pushKeys] using hk') (hsub.subset hmem)
            · intro op hopm
              exact hop op (List.mem_cons_of_mem _ hopm)

lemma exec_freshOnly_used_eq_len (ops : List Op) (h : freshOnly ops) :
    used_entries (exec ops) = len (exec ops) := by
  obtain ⟨hpk, hop⟩ := h
  exact fresh_foldl_used_eq_len ops new rfl (by simp [new]) (by simp [new])
    WF_new hpk (by simp [new, mapKeys]) hop

lemma drainKeys_eq_filterMap (s : OrdHash) (h : WF s) :
    drainKeys s = s.order.filterMap (curKey s.map) := by
  rw [drainKeys, drain, drainGo_eq_filterMap s.map s.order h.nodupKeys h.orderSorted,
    List.map_filterMap]
  rfl

lemma filterMap_filter_ne (ord : List GenHolder) (f : GenHolder → Option Nat)
    (k : Nat) (hf : ∀ t j, f t = some j → j = t.value) :
    (ord.filterMap f).filter (fun x => x != k) =
      ord.filterMap (fun t => if t.value = k then none else f t) := by
  induction ord with
  | nil => simp
  | cons t rest ih =>
      rw [List.filterMap_cons, List.filterMap_cons]
      cases hft : f t with
      | none => simp [hft, ih]
      | some j =>
          have hjv : j = t.value := hf t j hft
          subst hjv
          by_cases hk : t.value = k
          · simp [hft, hk, List.filter_cons, ih]
          · simp [hft, hk, List.filter_cons, ih]

lemma curKey_value (m : List (Nat × GenHolder)) (t : GenHolder) (j : Nat)
    (h : curKey m t = some j) : j = t.value := by
  rw [curKey, curEntry] at h
  cases hg : mapGet m t.value with
  | none => rw [hg] at h; simp at h
  | some vh =>
      rw [hg] at h
      by_cases he : vh.generation = t.generation
      · simp [he] at h; omega
      · simp [he] at h

lemma drainKeys_mark_refresh (s : OrdHash) (hwf : WF s) (k : Nat)
    (vh : GenHolder) (hg : mapGet s.map k = some vh) (hz : vh.generation ≠ 0) :
    drainKeys (refresh (mark_unused s k).2 k).2 =
      (drainKeys s).filter (fun x => x != k) ++ [k] := by
  have hs1 : (mark_unused s k).2 =
      { s with
        map := mapSetGen s.map k 0
        length := s.length - 1
        panicked := s.panicked || (s.length == 0) } := by
    simp only [mark_unused, hg]
    rw [if_pos hz]
  have hg1 : mapGet (mapSetGen s.map k 0) k = some ⟨0, vh.value⟩ := by
    rw [mapGet_mapSetGen_self, hg]; rfl
  have hs2 : (refresh (mark_unused s k).2 k).2 =
      { map := mapSetGen (mapSetGen s.map k 0) k (s.generation + 1)
        order := s.order ++ [⟨s.generation + 1, k⟩]
        generation := s.generation + 1
        length := (s.length - 1) + 1
        panicked := s.panicked || (s.length == 0) } := by
    rw [hs1]
    simp only [refresh]
    rw [hg1]
    simp
  have hwf2 : WF (refresh (mark_unused s k).2 k).2 :=
    WF_refresh _ k (WF_mark_unused s k hwf)
  have hg2 : mapGet (mapSetGen (mapSetGen s.map k 0) k (s.generation + 1)) k =
      some ⟨s.generation + 1, vh.value⟩ := by
    rw [mapGet_mapSetGen_self, hg1]; rfl
  rw [drainKeys_eq_filterMap _ hwf2, drainKeys_eq_filterMap s hwf, hs2]
  rw [List.filterMap_append]
  have htail : List.filterMap
      (curKey (mapSetGen (mapSetGen s.map k 0) k (s.generation + 1)))
      [(⟨s.generation + 1, k⟩ : GenHolder)] = [k] := by
    simp only [List.filterMap_cons, List.filterMap_nil]
    rw [curKey, curEntry]
    simp only [hg2]
    simp
  rw [htail]
  have hhead : List.filterMap
      (curKey (mapSetGen (mapSetGen s.map k 0) k (s.generation + 1))) s.order =
      s.order.filterMap (fun t => if t.value = k then none else curKey s.map t) := by
    apply List.filterMap_congr
    intro t ht
    by_cases hk : t.value = k
    · rw [curKey, curEntry, hk, hg2]
      have hlt : t.generation ≤ s.generation := hwf.orderLe t ht
      have : ¬ (s.generation + 1 = t.generation) := by omega
      simp [this, hk]
    · rw [curKey, curKey, curEntry, curEntry,
        mapGet_mapSetGen_ne _ k t.value _ hk, mapGet_mapSetGen_ne _ k t.value _ hk,
        if_neg hk]
  rw [hhead]
  rw [filterMap_filter_ne s.order (curKey s.map) k (curKey_value s.map)]

lemma drainKeys_push_disabled (s : OrdHash) (hwf : WF s) (k v : Nat)
    (vh : GenHolder) (hg : mapGet s.map k = some vh) (hz : vh.generation = 0) :
    drainKeys (push_back s k v) = drainKeys s ++ [k] := by
  have hwf2 : WF (push_back s k v) := WF_push_back s k v hwf
  have hmap : (push_back s k v).map = (mapInsert s.map k ⟨s.generation + 1, v⟩).1 := rfl
  have hord : (push_back s k v).order = s.order ++ [⟨s.generation + 1, k⟩] := rfl
  have hg2 : mapGet (mapInsert s.map k ⟨s.generation + 1, v⟩).1 k =
      some ⟨s.generation + 1, v⟩ := mapGet_mapInsert_self s.map k _
  rw [drainKeys_eq_filterMap _ hwf2, drainKeys_eq_filterMap s hwf, hord, hmap]
  rw [List.filterMap_append]
  have htail : List.filterMap (curKey (mapInsert s.map k ⟨s.generation + 1, v⟩).1)
      [(⟨s.generation + 1, k⟩ : GenHolder)] = [k] := by
    simp only [List.filterMap_cons, List.filterMap_nil]
    rw [curKey, curEntry]
    simp only [hg2]
    simp
  rw [htail]
  have hhead : List.filterMap (curKey (mapInsert s.map k ⟨s.generation + 1, v⟩).1)
      s.order = s.order.filterMap (curKey s.map) := by
    apply List.filterMap_congr
    intro t ht
    by_cases hk : t.value = k
    · rw [curKey, curKey, curEntry, curEntry, hk, hg2, hg]
      have hle : t.generation ≤ s.generation := hwf.orderLe t ht
      have hpos : 1 ≤ t.generation := hwf.orderPos t ht
      have h1 : ¬ (s.generation + 1 = t.generation) := by omega
      have h2 : ¬ (vh.generation = t.generation) := by omega
      simp [h1, h2]
    · rw [curKey, curKey, curEntry, curEntry, mapGet_mapInsert_ne s.map k t.value _ hk]
  rw [hhead]

lemma WF_popN (n : Nat) (s : OrdHash) (h : WF s) : WF (popN s n) := by
  induction n generalizing s with
  | zero => exact h
  | succ n ih => exact ih _ (WF_pop_front s h)

lemma liveCountM_eq_zero_of_order_nil (s : OrdHash) (h : WF s)
    (ho : s.order = []) : liveCountM s.map = 0 := by
  have := liveCountM_le_order_length s h
  rw [ho] at this
  simpa using this

lemma push_back_gen (s : OrdHash) (k v : Nat) :
    (push_back s k v).generation = s.generation + 1 := rfl

lemma refresh_gen (s : OrdHash) (k : Nat) :
    ((refresh s k).2).generation =
      if (mapGet s.map k).isSome then s.generation + 1 else s.generation := by
  cases hg : mapGet s.map k with
  | none => simp [refresh, hg]
  | some gh => simp [refresh, hg]

lemma mark_unused_gen (s : OrdHash) (k : Nat) :
    ((mark_unused s k).2).generation = s.generation := by
  cases hg : mapGet s.map k with
  | none => simp [mark_unused, hg]
  | some vh =>
      by_cases hz : vh.generation ≠ 0
      · simp only [mark_unused, hg]
        rw [if_pos hz]
      · simp only [mark_unused, hg]
        rw [if_neg hz]

lemma pop_front_gen (s : OrdHash) : ((pop_front s).2).generation = s.generation := rfl

lemma applyOp_gen_mono (s : OrdHash) (op : Op) :
    s.generation ≤ (applyOp s op).generation := by
  cases op with
  | push k v => exact Nat.le_succ _
  | markUnused k => exact Nat.le_of_eq (mark_unused_gen s k).symm
  | refreshOp k =>
      show s.generation ≤ ((refresh s k).2).generation
      rw [refresh_gen]
      by_cases hg : (mapGet s.map k).isSome <;> simp [hg]
  | popOp => exact Nat.le_of_eq (pop_front_gen s).symm

lemma mark_unused_eq (s : OrdHash) (k : Nat) (vh : GenHolder)
    (hg : mapGet s.map k = some vh) (hz : vh.generation ≠ 0) :
    mark_unused s k = (some vh.value,
      { s with
        map := mapSetGen s.map k 0
        length := s.length - 1
        panicked := s.panicked || (s.length == 0) }) := by
  simp only [mark_unused, hg]
  rw [if_pos hz]

lemma refresh_eq (s : OrdHash) (k : Nat) (gh : GenHolder)
    (hg : mapGet s.map k = some gh) :
    refresh s k = (some gh.value,
      { map := mapSetGen s.map k (s.generation + 1)
        order := s.order ++ [⟨s.generation + 1, k⟩]
        generation := s.generation + 1
        length := if 0 = gh.generation then s.length + 1 else s.length
        panicked := s.panicked }) := by
  simp only [refresh, hg]

/-- Claim C1 (refuted by the code, recorded as a code bug): the spec asserts
that after every operation sequence `len()` equals the number of distinct
keys whose slot holds a non-zero stamp.  `push_back` onto a disabled key
re-enables the slot (non-zero stamp, `get` succeeds) without incrementing
the live counter, so after push(1,10); mark_unused(1); push(1,20) the live
counter is 0 while one key holds a non-zero stamp. -/
theorem claim_C1 :
    len (exec [Op.push 1 10, Op.markUnused 1, Op.push 1 20]) = 0 ∧
    liveCount (exec [Op.push 1 10, Op.markUnused 1, Op.push 1 20]) = 1 ∧
    get (exec [Op.push 1 10, Op.markUnused 1, Op.push 1 20]) 1 = some 20 := by
  decide

/-- Claim C2 (refuted by the code, recorded as a code bug): `push_back` on a
key that is present but disabled (stamp 0) leaves `len()` unchanged instead
of increasing it by one, even though the key becomes live again; the other
claimed effects (`used_entries` + 1, value stored) are visible in the same
evaluation. -/
theorem claim_C2 :
    mapGet (exec [Op.push 2 10, Op.markUnused 2]).map 2 = some ⟨0, 10⟩ ∧
    len (push_back (exec [Op.push 2 10, Op.markUnused 2]) 2 20) =
      len (exec [Op.push 2 10, Op.markUnused 2]) ∧
    get (push_back (exec [Op.push 2 10, Op.markUnused 2]) 2 20) 2 = some 20 ∧
    used_entries (push_back (exec [Op.push 2 10, Op.markUnused 2]) 2 20) =
      used_entries (exec [Op.push 2 10, Op.markUnused 2]) + 1 := by
  decide

/-- Claim C3: from any reachable state, draining by repeated `pop_front`
returns entries whose stamps are strictly increasing, never returns the same
key twice, empties the order queue after at most `used_entries` pops, leaves
no live slot behind, and a further `pop_front` reports absence. -/
theorem claim_C3 (ops : List Op) :
    ((drain (exec ops)).map (fun r => r.2.1)).Pairwise (· < ·) ∧
    ((drain (exec ops)).map (fun r => r.1)).Nodup ∧
    (popN (exec ops) (used_entries (exec ops))).order = [] ∧
    liveCount (popN (exec ops) (used_entries (exec ops))) = 0 ∧
    (pop_front (popN (exec ops) (used_entries (exec ops)))).1 = none := by
  have hwf := WF_exec ops
  have hnil : (popN (exec ops) (used_entries (exec ops))).order = [] :=
    popN_order_nil _ _ (Nat.le_refl _)
  refine ⟨?_, ?_, hnil, ?_, ?_⟩
  · exact List.pairwise_map.mpr (drainGo_stamps_pairwise _ _ hwf.orderSorted)
  · exact drainGo_keys_nodup _ _ hwf.nodupKeys
  · exact liveCountM_eq_zero_of_order_nil _ (WF_popN _ _ hwf) hnil
  · exact (pop_front_order_nil _ hnil).1

/-- Claim C4 (refuted by the code, recorded as a code bug): the spec asserts
the live-count decrements in `pop_front` and `mark_unused` never occur at a
live count of zero.  After push(3,10); mark_unused(3); push(3,20) the state
is unpanicked with `len() = 0`, yet both a subsequent `pop_front` and a
subsequent `mark_unused` perform the decrement at zero, i.e. a `usize`
underflow (a panic in debug builds), recorded by the model's sticky flag. -/
theorem claim_C4 :
    (exec [Op.push 3 10, Op.markUnused 3, Op.push 3 20]).panicked = false ∧
    len (exec [Op.push 3 10, Op.markUnused 3, Op.push 3 20]) = 0 ∧
    (exec [Op.push 3 10, Op.markUnused 3, Op.push 3 20, Op.popOp]).panicked = true ∧
    (exec [Op.push 3 10, Op.markUnused 3, Op.push 3 20, Op.markUnused 3]).panicked
      = true := by
  decide

/-- Claim C5 counterexample: after push(4,1); push(4,2) the key 4 has been
updated exactly once (not more than once), and was never refreshed or
disabled, yet `used_entries()` is 2 while `len()` is 1, so the claimed
equivalence fails in the direction condition-implies-equality. -/
theorem claim_C5_counterexample :
    used_entries (exec [Op.push 4 1, Op.push 4 2]) = 2 ∧
    len (exec [Op.push 4 1, Op.push 4 2]) = 1 := by
  decide

/-- Claim C5 as amended: `used_entries() >= len()` holds in every reachable
state that has not performed the live-count underflow, and equality holds
whenever no key is ever updated, refreshed or disabled (though not only
then). -/
theorem claim_C5 (ops : List Op) :
    ((exec ops).panicked = false → len (exec ops) ≤ used_entries (exec ops)) ∧
    (freshOnly ops → used_entries (exec ops) = len (exec ops)) := by
  constructor
  · intro hp
    exact Nat.le_trans (exec_length_le_liveCount ops hp)
      (liveCountM_le_order_length (exec ops) (WF_exec ops))
  · intro hf
    exact exec_freshOnly_used_eq_len ops hf

/-- Witness for claim C5 at the sequence push(1,1); push(2,2); pop. -/
theorem claim_C5_witness :
    len (exec [Op.push 1 1, Op.push 2 2, Op.popOp]) ≤
      used_entries (exec [Op.push 1 1, Op.push 2 2, Op.popOp]) ∧
    used_entries (exec [Op.push 1 1, Op.push 2 2, Op.popOp]) =
      len (exec [Op.push 1 1, Op.push 2 2, Op.popOp]) :=
  ⟨(claim_C5 [Op.push 1 1, Op.push 2 2, Op.popOp]).1 (by decide),
   (claim_C5 [Op.push 1 1, Op.push 2 2, Op.popOp]).2 ⟨by decide, by decide⟩⟩

/-- Claim C6: on any reachable state, disabling a live key and then
refreshing it returns the stored value unchanged from both calls, leaves the
key live with that value, and the drain (pop) order of the resulting state
is the old order with that key removed, followed by that key at the back —
so other keys keep their relative order. -/
theorem claim_C6 (ops : List Op) (k : Nat) (vh : GenHolder)
    (hg : mapGet (exec ops).map k = some vh) (hz : vh.generation ≠ 0) :
    (mark_unused (exec ops) k).1 = some vh.value ∧
    (refresh (mark_unused (exec ops) k).2 k).1 = some vh.value ∧
    get (refresh (mark_unused (exec ops) k).2 k).2 k = some vh.value ∧
    drainKeys (refresh (mark_unused (exec ops) k).2 k).2 =
      (drainKeys (exec ops)).filter (fun x => x != k) ++ [k] := by
  have hwf := WF_exec ops
  have h1 := mark_unused_eq (exec ops) k vh hg hz
  have hm1 : mapGet ((mark_unused (exec ops) k).2).map k = some ⟨0, vh.value⟩ := by
    rw [h1]
    show mapGet (mapSetGen (exec ops).map k 0) k = some ⟨0, vh.value⟩
    rw [mapGet_mapSetGen_self, hg]
    rfl
  have h2 := refresh_eq ((mark_unused (exec ops) k).2) k ⟨0, vh.value⟩ hm1
  refine ⟨?_, ?_, ?_, ?_⟩
  · rw [h1]
  · rw [h2]
  · rw [h2]
    show get _ k = some vh.value
    rw [get]
    have hmap : mapGet (mapSetGen ((mark_unused (exec ops) k).2).map k
        (((mark_unused (exec ops) k).2).generation + 1)) k =
        some ⟨((mark_unused (exec ops) k).2).generation + 1, vh.value⟩ := by
      rw [mapGet_mapSetGen_self, hm1]
      rfl
    simp only [hmap]
    simp
  · exact drainKeys_mark_refresh (exec ops) hwf k vh hg hz

/-- Witness for claim C6 at the state reached by push(5,7); push(6,8),
disabling and refreshing key 5. -/
theorem claim_C6_witness :
    (mark_unused (exec [Op.push 5 7, Op.push 6 8]) 5).1 = some 7 ∧
    (refresh (mark_unused (exec [Op.push 5 7, Op.push 6 8]) 5).2 5).1 = some 7 ∧
    get (refresh (mark_unused (exec [Op.push 5 7, Op.push 6 8]) 5).2 5).2 5
      = some 7 ∧
    drainKeys (refresh (mark_unused (exec [Op.push 5 7, Op.push 6 8]) 5).2 5).2 =
      (drainKeys (exec [Op.push 5 7, Op.push 6 8])).filter (fun x => x != 5)
        ++ [5] :=
  claim_C6 [Op.push 5 7, Op.push 6 8] 5 ⟨1, 7⟩ (by decide) (by decide)

/-- Claim C7: on every container state, `peek_front` returns exactly the
key-value pair `pop_front` would return (and absence exactly when it
would); the container itself is untouched, which the embedding expresses by
`peek_front` taking the state by value and returning no successor state,
matching the `&self` receiver in the source. -/
theorem claim_C7 (s : OrdHash) : peek_front s = (pop_front s).1 := by
  rw [peek_front, pop_front_res_eq]
  exact peekFrontGo_eq_popFrontGo s.map s.length s.order

/-- Claim C8 (scenario C, with the strings one/two/one_updated encoded as
101/102/103): push(1,101); push(2,102); push(1,103) gives len 2 and
used_entries 3; the first pop returns (2,102) leaving len 1 and used_entries
1; the second pop returns (1,103) leaving the structure empty. -/
theorem claim_C8 :
    len (exec [Op.push 1 101, Op.push 2 102, Op.push 1 103]) = 2 ∧
    used_entries (exec [Op.push 1 101, Op.push 2 102, Op.push 1 103]) = 3 ∧
    (pop_front (exec [Op.push 1 101, Op.push 2 102, Op.push 1 103])).1
      = some (2, 102) ∧
    len (exec [Op.push 1 101, Op.push 2 102, Op.push 1 103, Op.popOp]) = 1 ∧
    used_entries (exec [Op.push 1 101, Op.push 2 102, Op.push 1 103, Op.popOp])
      = 1 ∧
    (pop_front (exec [Op.push 1 101, Op.push 2 102, Op.push 1 103, Op.popOp])).1
      = some (1, 103) ∧
    len (exec [Op.push 1 101, Op.push 2 102, Op.push 1 103, Op.popOp, Op.popOp])
      = 0 ∧
    used_entries
      (exec [Op.push 1 101, Op.push 2 102, Op.push 1 103, Op.popOp, Op.popOp])
      = 0 ∧
    is_empty
      (exec [Op.push 1 101, Op.push 2 102, Op.push 1 103, Op.popOp, Op.popOp])
      = true := by
  decide

/-- Claim C9: the generation counter increases by exactly 1 on every
push_back and every refresh of an existing key, is unchanged by mark_unused,
pop_front and refresh of a missing key, never decreases across any
operation, and in every reachable state all order stamps are non-zero,
bounded by the counter and pairwise strictly increasing (never reused), and
all slot stamps are bounded by the counter. -/
theorem claim_C9 :
    (∀ s : OrdHash, ∀ k v : Nat, (push_back s k v).generation = s.generation + 1) ∧
    (∀ s : OrdHash, ∀ k : Nat, ((refresh s k).2).generation =
      if (mapGet s.map k).isSome then s.generation + 1 else s.generation) ∧
    (∀ s : OrdHash, ∀ k : Nat, ((mark_unused s k).2).generation = s.generation) ∧
    (∀ s : OrdHash, ((pop_front s).2).generation = s.generation) ∧
    (∀ s : OrdHash, ∀ op : Op, s.generation ≤ (applyOp s op).generation) ∧
    (∀ ops : List Op, ∀ t ∈ (exec ops).order,
      1 ≤ t.generation ∧ t.generation ≤ (exec ops).generation) ∧
    (∀ ops : List Op,
      ((exec ops).order.map (fun t => t.generation)).Pairwise (· < ·)) ∧
    (∀ ops : List Op, ∀ p ∈ (exec ops).map,
      p.2.generation ≤ (exec ops).generation) := by
  refine ⟨push_back_gen, refresh_gen, mark_unused_gen, pop_front_gen,
    applyOp_gen_mono, ?_, ?_, ?_⟩
  · intro ops t ht
    exact ⟨(WF_exec ops).orderPos t ht, (WF_exec ops).orderLe t ht⟩
  · intro ops
    exact List.pairwise_map.mpr (WF_exec ops).orderSorted
  · intro ops p hp
    exact (WF_exec ops).slotLe p hp

/-- Witness for claim C9: the hypothesis-bearing conjuncts instantiated at
the state reached by push(1,5). -/
theorem claim_C9_witness :
    (1 ≤ (GenHolder.mk 1 1).generation ∧
      (GenHolder.mk 1 1).generation ≤ (exec [Op.push 1 5]).generation) ∧
    (1, GenHolder.mk 1 5).2.generation ≤ (exec [Op.push 1 5]).generation :=
  ⟨claim_C9.2.2.2.2.2.1 [Op.push 1 5] ⟨1, 1⟩ (by decide),
   claim_C9.2.2.2.2.2.2.2 [Op.push 1 5] (1, ⟨1, 5⟩) (by decide)⟩

/-- Claim C10: on any reachable state in which a key is present but disabled
(stamp 0), push_back re-enables it: `get` then returns the new value, and
the key drains last (back-most in traversal order), so refresh is not the
only disabled-to-live transition. -/
theorem claim_C10 (ops : List Op) (k v : Nat) (vh : GenHolder)
    (hg : mapGet (exec ops).map k = some vh) (hz : vh.generation = 0) :
    get (push_back (exec ops) k v) k = some v ∧
    drainKeys (push_back (exec ops) k v) = drainKeys (exec ops) ++ [k] := by
  constructor
  · rw [get]
    have hmap : mapGet (push_back (exec ops) k v).map k =
        some ⟨(exec ops).generation + 1, v⟩ :=
      mapGet_mapInsert_self (exec ops).map k _
    simp only [hmap]
    simp
  · exact drainKeys_push_disabled (exec ops) (WF_exec ops) k v vh hg hz

/-- Witness for claim C10 at the state reached by push(9,3); mark_unused(9),
pushing (9,4). -/
theorem claim_C10_witness :
    get (push_back (exec [Op.push 9 3, Op.markUnused 9]) 9 4) 9 = some 4 ∧
    drainKeys (push_back (exec [Op.push 9 3, Op.markUnused 9]) 9 4) =
      drainKeys (exec [Op.push 9 3, Op.markUnused 9]) ++ [9] :=
  claim_C10 [Op.push 9 3, Op.markUnused 9] 9 4 ⟨0, 3⟩ (by decide) (by decide)

end OrdHash
